import Mathlib

/-!
Verification development for the PearSync sync engine
(`src/lib/sync-v2.js` and `src/lib/autobase.js`).

The data model and the operations are shallowly embedded: the Hyperbee
view is an ordered association list from path strings to file metadata,
log operations are a tagged union, and the apply / push / pull routines
become pure Lean functions over explicit state.  File contents are byte
lists (`List Nat`, each element `< 256`); the SHA-256 digest is an
abstract parameter `hashFn` (only its determinism matters to the
properties below), while the base64 codec used by `_pushFile` /
`_pullFile` is implemented concretely.
-/

namespace PearSync

/-- Local `fs.stat` result for a file: the fields `_pushFile` and
`_needsSync` read (`size`, `mtimeMs`, `mode`). -/
structure LocalStat where
  size : Nat
  mtimeMs : Int
  mode : Nat
deriving DecidableEq, Repr

/-- The value stored under a path in the view, as built by `_pushFile`:
`{content (base64), size, mtime, mode, hash, writerKey}`. -/
structure FileMeta where
  content : List Char
  size : Nat
  mtime : Int
  mode : Nat
  hash : String
  writerKey : String
deriving DecidableEq, Repr

/-- Log operation payload (`put` / `del` / `add-writer` / `remove-writer`),
the tagged union appended by the sync engine and consumed by `_applyBatch`. -/
inductive Op where
  | put (key : String) (value : FileMeta)
  | del (key : String)
  | addWriter (writerKey : String)
  | removeWriter (writerKey : String)
deriving DecidableEq, Repr

/-- A linearized node handed to `_applyBatch`: the authoring writer's key
(`node.writer.key`, hex) and the decoded payload (`node.value`, which the
code guards against being absent). -/
structure Node where
  writer : String
  value : Option Op
deriving DecidableEq, Repr

/-- The materialized view: an ordered mapping path → FileMeta
(Hyperbee iterates keys in order, so equal maps have equal bytes). -/
abbrev View := List (String × FileMeta)

/-- `bee.put` on the ordered view: insert or replace, keeping keys sorted. -/
def beePut (k : String) (v : FileMeta) : View → View
  | [] => [(k, v)]
  | (k', v') :: rest =>
    if k < k' then (k, v) :: (k', v') :: rest
    else if k = k' then (k, v) :: rest
    else (k', v') :: beePut k v rest

/-- `bee.del` on the ordered view. -/
def beeDel (k : String) : View → View
  | [] => []
  | (k', v') :: rest =>
    if k = k' then rest else (k', v') :: beeDel k rest

/-- `bee.get`: point lookup in the view. -/
def viewGet (view : View) (k : String) : Option FileMeta :=
  match view with
  | [] => none
  | (k', v) :: rest => if k = k' then some v else viewGet rest k

/-- Writer-set insertion performed by `base.addWriter` when `_applyBatch`
meets an `add-writer` op. -/
def addWriterSet (ws : List String) (k : String) : List String :=
  if k ∈ ws then ws else ws ++ [k]

/-- Writer-set removal performed by `base.removeWriter`. -/
def removeWriterSet (ws : List String) (k : String) : List String :=
  ws.filter (fun w => w ≠ k)

/-- Replicated-base state visible to `_applyBatch`: the view plus the set
of admitted writer keys. -/
structure BaseState where
  view : View
  writers : List String
deriving DecidableEq, Repr

/-- One iteration of the loop body of `_applyBatch`
(`src/lib/autobase.js:45-64`): skip nodes without a value, fold `put` and
`del` into the bee, admit writers on `add-writer`, and on `remove-writer`
drop the writer only when the authoring writer equals the named key. -/
def applyNode (st : BaseState) (node : Node) : BaseState :=
  match node.value with
  | none => st
  | some op =>
    match op with
    | .put k v => { st with view := beePut k v st.view }
    | .del k => { st with view := beeDel k st.view }
    | .addWriter k => { st with writers := addWriterSet st.writers k }
    | .removeWriter k =>
        if node.writer = k then { st with writers := removeWriterSet st.writers k }
        else st

/-- `_applyBatch`: fold the loop body over the batch in order. -/
def applyBatch (st : BaseState) (batch : List Node) : BaseState :=
  batch.foldl applyNode st

/-- Folding a whole linearized sequence of batches through `_applyBatch`. -/
def applyBatches (st : BaseState) (batches : List (List Node)) : BaseState :=
  batches.foldl applyBatch st

/-- Big-step execution relation of `_applyBatch` over one batch: the graph
of the loop, taken one node at a time. -/
inductive BatchApply : BaseState → List Node → BaseState → Prop where
  | nil (st : BaseState) : BatchApply st [] st
  | cons {st st' : BaseState} {n : Node} {ns : List Node} :
      BatchApply (applyNode st n) ns st' → BatchApply st (n :: ns) st'

/-- Execution relation for a peer that applies a linearized sequence of
batches via `_applyBatch`, batch after batch. -/
inductive SessionApply : BaseState → List (List Node) → BaseState → Prop where
  | nil (st : BaseState) : SessionApply st [] st
  | cons {st mid st' : BaseState} {b : List Node} {bs : List (List Node)} :
      BatchApply st b mid → SessionApply mid bs st' → SessionApply st (b :: bs) st'

/-! ### Ignore patterns (`shouldIgnore`, `src/lib/sync-v2.js:312-327`) -/

/-- The default ignore patterns (`DEFAULT_IGNORES`). -/
def DEFAULT_IGNORES : List String :=
  ["node_modules", ".git", ".DS_Store", "Thumbs.db", "*.swp", "*.swo",
   "*~", ".env", ".env.local", ".pearsyncignore"]

/-- `*` matching: try the rest of the pattern at every suffix of the
string (`m` is the matcher for the pattern after the `*`). -/
def globStar (m : List Char → Bool) : List Char → Bool
  | [] => m []
  | c :: tail => m (c :: tail) || globStar m tail

/-- Matching of the regex `'^' + pattern.replace(/\x2a/g, '.*') + '$'`
against a string: `*` in the pattern matches any character sequence and
`.` (a regex metacharacter left unescaped by the code) matches any single
character; every other pattern character is literal. -/
def globMatch : List Char → List Char → Bool
  | [], s => s.isEmpty
  | '*' :: ps, s => globStar (globMatch ps) s
  | '.' :: ps, s =>
    (match s with
     | [] => false
     | _ :: tail => globMatch ps tail)
  | p :: ps, s =>
    (match s with
     | [] => false
     | c :: tail => c = p && globMatch ps tail)

/-- Splitting a character list at a separator character
(`filePath.split(path.sep)` with `/` as separator). -/
def splitOnChar (sep : Char) : List Char → List (List Char)
  | [] => [[]]
  | c :: rest =>
    if c = sep then [] :: splitOnChar sep rest
    else
      match splitOnChar sep rest with
      | [] => [[c]]
      | g :: gs => (c :: g) :: gs

/-- The `/`-separated components of a relative path. -/
def pathParts (filePath : String) : List String :=
  (splitOnChar '/' filePath.data).map fun cs => String.mk cs

/-- `path.basename`: the last `/`-separated component of a relative path. -/
def basenameOf (filePath : String) : String :=
  (pathParts filePath).getLastD filePath

/-- `shouldIgnore`: a pattern matches when it equals the basename, equals
some path component, or (when it contains `*`) its derived regex matches
the basename. -/
def shouldIgnore (patterns : List String) (filePath : String) : Bool :=
  let basename := basenameOf filePath
  let parts := pathParts filePath
  patterns.any fun pattern =>
    basename = pattern || parts.contains pattern ||
      (pattern.data.contains '*' && globMatch pattern.data basename.data)

/-! ### Base64 codec (`content.toString('base64')` in `_pushFile`,
`Buffer.from(metadata.content, 'base64')` in `_pullFile`) -/

/-- The base64 alphabet: sextet value → character. -/
def b64Char (n : Nat) : Char :=
  if n < 26 then Char.ofNat (65 + n)
  else if n < 52 then Char.ofNat (97 + (n - 26))
  else if n < 62 then Char.ofNat (48 + (n - 52))
  else if n = 62 then '+'
  else '/'

/-- Inverse of the base64 alphabet: character → sextet value. -/
def b64Val (c : Char) : Nat :=
  let v := c.toNat
  if 65 ≤ v ∧ v ≤ 90 then v - 65
  else if 97 ≤ v ∧ v ≤ 122 then v - 97 + 26
  else if 48 ≤ v ∧ v ≤ 57 then v - 48 + 52
  else if c = '+' then 62
  else 63

/-- Base64 encoding of a byte list, with `=` padding, as produced by
`Buffer.toString('base64')`. -/
def b64encode : List Nat → List Char
  | [] => []
  | [a] => [b64Char (a / 4), b64Char (a % 4 * 16), '=', '=']
  | [a, b] => [b64Char (a / 4), b64Char (a % 4 * 16 + b / 16), b64Char (b % 16 * 4), '=']
  | a :: b :: c :: rest =>
      b64Char (a / 4) :: b64Char (a % 4 * 16 + b / 16) ::
      b64Char (b % 16 * 4 + c / 64) :: b64Char (c % 64) :: b64encode rest

/-- Base64 decoding of a character list, honouring `=` padding, as
performed by `Buffer.from(s, 'base64')`. -/
def b64decode : List Char → List Nat
  | w :: x :: y :: z :: rest =>
    if y = '=' then [b64Val w * 4 + b64Val x / 16]
    else if z = '=' then
      [b64Val w * 4 + b64Val x / 16, b64Val x % 16 * 16 + b64Val y / 4]
    else
      (b64Val w * 4 + b64Val x / 16) ::
      (b64Val x % 16 * 16 + b64Val y / 4) ::
      (b64Val y % 4 * 64 + b64Val z) :: b64decode rest
  | _ => []

/-! ### Push path (`syncToRemote`, `_pushFile`, `_needsSync`) -/

/-- A file found by `_walkDir`: relative path, stat, and content bytes. -/
structure LocalFile where
  path : String
  stat : LocalStat
  content : List Nat
deriving DecidableEq, Repr

/-- The view value appended by `_pushFile`
(`src/lib/sync-v2.js:495-521`): base64 content, the stat's size, mtime
and mode, the SHA-256 hex digest of the content, and the local writer
key. -/
def pushMeta (hashFn : List Nat → String) (writerKey : String)
    (st : LocalStat) (content : List Nat) : FileMeta :=
  { content := b64encode content
    size := st.size
    mtime := st.mtimeMs
    mode := st.mode
    hash := hashFn content
    writerKey := writerKey }

/-- The bytes `_pullFile` (`src/lib/sync-v2.js:538-568`) writes to disk
for a view entry: the base64 decode of the embedded content. -/
def pullContent (m : FileMeta) : List Nat :=
  b64decode m.content

/-- `_needsSync` (`src/lib/sync-v2.js:573-612`): missing local file or
missing view entry → sync; else sync when the mtimes differ by more than
1000 ms with the local one newer, or the SHA-256 digests differ. -/
def needsSync (hashFn : List Nat → String) (localStat : Option LocalStat)
    (entry : Option FileMeta) (content : List Nat) : Bool :=
  match localStat with
  | none => true
  | some st =>
    match entry with
    | none => true
    | some v =>
      if (st.mtimeMs - v.mtime).natAbs > 1000 ∧ st.mtimeMs > v.mtime then true
      else decide (hashFn content ≠ v.hash)

/-- `_needsSync` for a walked local file, looking its path up in the view. -/
def fileNeedsSync (hashFn : List Nat → String) (view : View) (f : LocalFile) : Bool :=
  needsSync hashFn (some f.stat) (viewGet view f.path) f.content

/-- One iteration of the push loop of `syncToRemote`
(`src/lib/sync-v2.js:361-375`): skip ignored paths; when `_needsSync`
holds, `_pushFile` appends a `put` and the view is updated. -/
def pushStep (hashFn : List Nat → String) (ourKey : String) (patterns : List String)
    (acc : View × List (String × FileMeta)) (f : LocalFile) : View × List (String × FileMeta) :=
  if shouldIgnore patterns f.path then acc
  else if fileNeedsSync hashFn acc.1 f then
    let m := pushMeta hashFn ourKey f.stat f.content
    (beePut f.path m acc.1, acc.2 ++ [(f.path, m)])
  else acc

/-- The push loop over all walked files, returning the final view and the
list of appended `put` operations (path and value). -/
def pushRun (hashFn : List Nat → String) (ourKey : String) (patterns : List String)
    (view : View) (files : List LocalFile) : View × List (String × FileMeta) :=
  files.foldl (pushStep hashFn ourKey patterns) (view, [])

/-- The view component of one push-loop iteration (the first projection
of `pushStep`, convenient for reasoning about the final view). -/
def pushView (hashFn : List Nat → String) (ourKey : String) (patterns : List String)
    (v : View) (f : LocalFile) : View :=
  if shouldIgnore patterns f.path then v
  else if fileNeedsSync hashFn v f then
    beePut f.path (pushMeta hashFn ourKey f.stat f.content) v
  else v

/-- Result of `fs.access` on a path. -/
inductive Access where
  | ok
  | enoent
  | otherError
deriving DecidableEq, Repr

/-- The deletion phase of `syncToRemote` with `syncDeletes` enabled
(`src/lib/sync-v2.js:380-399`): for each view entry whose value carries
our writer key, append a `del` exactly when `fs.access` fails with
`ENOENT`. Returns the paths `del`-ed. -/
def pushDeletes (ourKey : String) (access : String → Access)
    (entries : List (String × Option FileMeta)) : List String :=
  entries.filterMap fun e =>
    match e.2 with
    | some v => if v.writerKey = ourKey ∧ access e.1 = Access.enoent then some e.1 else none
    | none => none

/-! ### Pull path (`syncToLocal`, `src/lib/sync-v2.js:412-490`) -/

/-- The per-entry pull decision (`src/lib/sync-v2.js:436-453`): a locally
absent path is always pulled; an existing file is pulled only when the
entry has a (truthy) `mtime` strictly greater than the local mtime plus
1000 ms. -/
def needsPull (localStat : Option LocalStat) (value : Option FileMeta) : Bool :=
  match localStat with
  | none => true
  | some st =>
    match value with
    | none => false
    | some v => if v.mtime ≠ 0 then decide (v.mtime > st.mtimeMs + 1000) else false

/-- The paths `syncToLocal` writes to disk via `_pullFile`: non-ignored
entries for which `needsPull` holds. -/
def pullWrites (patterns : List String) (localFS : String → Option LocalStat)
    (entries : List (String × Option FileMeta)) : List String :=
  entries.filterMap fun e =>
    if shouldIgnore patterns e.1 then none
    else if needsPull (localFS e.1) e.2 then some e.1 else none

/-- The deletion phase of `syncToLocal` with `syncDeletes` enabled
(`src/lib/sync-v2.js:465-482`): unlink non-ignored local files whose path
is absent from the set of view keys. -/
def pullDeletes (patterns : List String) (entries : List (String × Option FileMeta))
    (localFiles : List String) : List String :=
  localFiles.filter fun p =>
    !shouldIgnore patterns p && !(entries.map Prod.fst).contains p

/-! ### Writer exchange (`_exchangeWriterKeys`, `src/lib/sync-v2.js:217-258`)
and admission polling (`_pollForWriterStatus`, `src/lib/sync-v2.js:281-307`) -/

/-- Per-connection exchange state: the seen set of received keys and the
operations appended so far. -/
structure ExchangeState where
  received : List String
  appended : List Op
deriving DecidableEq, Repr

/-- The `onmessage` handler for a received writer key: deduplicate
against the per-connection seen set, skip our own key, and append an
`add-writer` only when the local base is writable. -/
def onWriterKey (ourKey : String) (writable : Bool)
    (st : ExchangeState) (peerKey : String) : ExchangeState :=
  if peerKey ∈ st.received then st
  else if peerKey = ourKey then { st with received := st.received ++ [peerKey] }
  else if writable then
    { received := st.received ++ [peerKey]
      appended := st.appended ++ [Op.addWriter peerKey] }
  else { st with received := st.received ++ [peerKey] }

/-- `maxAttempts` of `_pollForWriterStatus`. -/
def maxAttempts : Nat := 30

/-- The poll interval of `_pollForWriterStatus`, in milliseconds. -/
def pollIntervalMs : Nat := 1000

/-- Outcome of `_pollForWriterStatus`: the returned boolean, whether the
timeout error was emitted, and how many sleep/update attempts ran. -/
structure PollOutcome where
  result : Bool
  errorEmitted : Bool
  attempts : Nat
deriving DecidableEq, Repr

/-- The polling loop from attempt index `i`: sleep, update, return `true`
on `writable`; after `maxAttempts` failed attempts emit the timeout error
and return `false`. `writable i` is the value of `base.writable` observed
at the `i`-th attempt. -/
def pollFrom (writable : Nat → Bool) (i : Nat) : PollOutcome :=
  if h : i < maxAttempts then
    if writable i then ⟨true, false, i + 1⟩
    else pollFrom writable (i + 1)
  else ⟨false, true, i⟩
termination_by maxAttempts - i

/-- `_pollForWriterStatus`, starting from attempt 0. -/
def pollForWriterStatus (writable : Nat → Bool) : PollOutcome :=
  pollFrom writable 0

/-! ### Concrete sample data used to evaluate the development on small inputs -/

/-- A concrete stand-in for the SHA-256 hex digest (any deterministic
function works for the properties that mention the hash abstractly). -/
def demoHash : List Nat → String := fun bs => String.mk (b64encode bs)

/-- A sample view value. -/
def demoMeta : FileMeta := ⟨"QQ==".data, 1, 5, 420, "aa", "w1"⟩

/-- A sample linearized batch sequence. -/
def demoBatches : List (List Node) :=
  [[⟨"w1", some (Op.put "a.txt" demoMeta)⟩], [⟨"w1", some (Op.addWriter "w2")⟩]]

/-- The state a peer reaches after applying `demoBatches` from a fresh base. -/
def demoOut : BaseState := applyBatches ⟨[], ["w1"]⟩ demoBatches

/-- A sample walked directory. -/
def demoFiles : List LocalFile :=
  [⟨"a.txt", ⟨1, 0, 420⟩, [65]⟩, ⟨"b/c.txt", ⟨2, 7, 420⟩, [66, 67]⟩]

/-- A local stat whose mtime is exactly 1000 ms older than `cexMeta`'s. -/
def cexStat : LocalStat := ⟨10, 0, 420⟩

/-- A view value whose mtime is exactly `cexStat.mtimeMs + 1000`. -/
def cexMeta : FileMeta := ⟨[], 10, 1000, 420, "aa", "w1"⟩

/-- A view value whose mtime exceeds `cexStat.mtimeMs` by more than 1000 ms. -/
def pulledMeta : FileMeta := ⟨[], 10, 2000, 420, "aa", "w1"⟩

/-- A view value authored by a different writer (`w2`). -/
def foreignMeta : FileMeta := ⟨[], 10, 1000, 420, "aa", "w2"⟩

/-! ### General lemmas about the embedded operations -/

theorem batchApply_eq {st st' : BaseState} {b : List Node}
    (h : BatchApply st b st') : st' = applyBatch st b := by
  induction h with
  | nil => rfl
  | cons _ ih => simpa [applyBatch] using ih

theorem sessionApply_eq {st st' : BaseState} {bs : List (List Node)}
    (h : SessionApply st bs st') : st' = applyBatches st bs := by
  induction h with
  | nil => rfl
  | cons hb _ ih =>
    simp only [applyBatches, List.foldl_cons] at *
    rw [ih, ← batchApply_eq hb]

/-- Association lists with nodup keys determine values uniquely. -/
theorem nodupKeys_eq {α β : Type} {l : List (α × β)} (h : (l.map Prod.fst).Nodup)
    {p : α} {a b : β} (ha : (p, a) ∈ l) (hb : (p, b) ∈ l) : a = b := by
  induction l with
  | nil => cases ha
  | cons e rest ih =>
    rw [List.map_cons, List.nodup_cons] at h
    rcases List.mem_cons.mp ha with ha' | ha' <;>
      rcases List.mem_cons.mp hb with hb' | hb'
    · exact (Prod.ext_iff.mp (ha'.trans hb'.symm)).2
    · rw [← ha'] at h
      exact absurd (List.mem_map_of_mem Prod.fst hb') h.1
    · rw [← hb'] at h
      exact absurd (List.mem_map_of_mem Prod.fst ha') h.1
    · exact ih h.2 ha' hb'

/-! ### Claim theorems -/

/-- C1: `_applyBatch` is deterministic — two peers that apply the same
linearized batch sequence from the same initial base state reach bytewise
equal views (and equal states overall). -/
theorem applyBatch_deterministic (init s1 s2 : BaseState) (batches : List (List Node))
    (h1 : SessionApply init batches s1) (h2 : SessionApply init batches s2) :
    s1.view = s2.view ∧ s1 = s2 := by
  have e1 := sessionApply_eq h1
  have e2 := sessionApply_eq h2
  subst e1; subst e2; exact ⟨rfl, rfl⟩

/-- Witness for C1 at a concrete batch sequence. -/
theorem applyBatch_deterministic_witness :
    demoOut.view = demoOut.view ∧ demoOut = demoOut :=
  applyBatch_deterministic ⟨[], ["w1"]⟩ demoOut demoOut demoBatches
    (SessionApply.cons (BatchApply.cons (BatchApply.nil _))
      (SessionApply.cons (BatchApply.cons (BatchApply.nil _)) (SessionApply.nil _)))
    (SessionApply.cons (BatchApply.cons (BatchApply.nil _))
      (SessionApply.cons (BatchApply.cons (BatchApply.nil _)) (SessionApply.nil _)))

/-- C3: a `remove-writer` node whose authoring writer differs from the
named key is a no-op on the whole state (view and writer set), and a
writer can disappear from the writer set only through a `remove-writer`
operation it authored itself. -/
theorem removeWriter_self_only (st : BaseState) (w k : String) (node : Node)
    (hw : w ≠ k) :
    applyNode st ⟨w, some (Op.removeWriter k)⟩ = st ∧
    (∀ x, x ∈ st.writers → x ∉ (applyNode st node).writers →
      node.writer = x ∧ node.value = some (Op.removeWriter x)) := by
  constructor
  · simp [applyNode, hw]
  · rcases node with ⟨nw, nv⟩
    intro x hx hx'
    rcases nv with _ | op
    · exact absurd hx hx'
    · rcases op with ⟨k', v'⟩ | ⟨k'⟩ | ⟨k'⟩ | ⟨k'⟩
      · exact absurd hx hx'
      · exact absurd hx hx'
      · simp only [applyNode, addWriterSet] at hx'
        split at hx'
        · exact absurd hx hx'
        · exact absurd (List.mem_append_left _ hx) hx'
      · simp only [applyNode] at hx'
        by_cases hself : nw = k'
        · rw [if_pos hself] at hx'
          simp only [removeWriterSet, List.mem_filter, decide_eq_true_eq] at hx'
          have hxk : x = k' := by
            by_contra hne
            exact hx' ⟨hx, hne⟩
          exact ⟨hself.trans hxk.symm, by rw [hxk]⟩
        · rw [if_neg hself] at hx'
          exact absurd hx hx'

/-- Witness for C3: a `remove-writer{w1}` authored by `w2` leaves the
state untouched. -/
theorem removeWriter_self_only_witness :
    applyNode ⟨[], ["w1", "w2"]⟩ ⟨"w2", some (Op.removeWriter "w1")⟩ = ⟨[], ["w1", "w2"]⟩ :=
  (removeWriter_self_only ⟨[], ["w1", "w2"]⟩ "w2" "w1" ⟨"w2", some (Op.removeWriter "w1")⟩
    (by decide)).1

/-- C10: for a file present both locally and in the view, `_needsSync` is
true exactly when the local mtime exceeds the entry's mtime by more than
1000 ms or the content hashes differ; a newer remote mtime never
suppresses the hash comparison. -/
theorem needsSync_iff (hashFn : List Nat → String) (st : LocalStat) (v : FileMeta)
    (content : List Nat) :
    needsSync hashFn (some st) (some v) content = true ↔
      (st.mtimeMs > v.mtime + 1000 ∨ hashFn content ≠ v.hash) := by
  simp only [needsSync]
  split_ifs with h
  · simp only [true_iff]
    exact Or.inl (by omega)
  · simp only [decide_eq_true_eq]
    constructor
    · exact Or.inr
    · intro hc
      rcases hc with hc | hc
      · exact absurd ⟨by omega, by omega⟩ h
      · exact hc

/-- C4 counterexample: a view entry whose mtime exceeds the local mtime
by exactly 1000 ms is **not** pulled, though the claim's "≥ 1000 ms"
threshold says it must be. -/
theorem needsPull_boundary_counterexample :
    cexMeta.mtime = cexStat.mtimeMs + 1000 ∧
    needsPull (some cexStat) (some cexMeta) = false := by
  constructor
  · decide
  · decide

/-- C4 (amended): an existing local file is rewritten on pull exactly
when the entry records a nonzero mtime **strictly greater** than the
local mtime plus 1000 ms; a locally absent path is always pulled. -/
theorem needsPull_spec (st : LocalStat) (v : FileMeta) (hm : v.mtime ≠ 0) :
    (needsPull (some st) (some v) = true ↔ v.mtime > st.mtimeMs + 1000) ∧
    (∀ value, needsPull none value = true) := by
  constructor
  · simp only [needsPull]
    rw [if_pos hm]
    simp
  · intro value; rfl

/-- Witness for C4 (amended): an entry 2000 ms newer than the local file
is pulled. -/
theorem needsPull_spec_witness :
    needsPull (some cexStat) (some pulledMeta) = true :=
  (needsPull_spec cexStat pulledMeta (by decide)).1.mpr (by decide)

/-- C2: with `syncDeletes` enabled, the push deletion phase appends a
`del` for a path iff some view entry at that path carries the local
writer key and the local file is absent (`ENOENT`); with unique view
keys, an entry authored by a different writer is never `del`-ed. -/
theorem pushDeletes_spec (ourKey : String) (access : String → Access)
    (entries : List (String × Option FileMeta)) (p : String) :
    (p ∈ pushDeletes ourKey access entries ↔
      ∃ v, (p, some v) ∈ entries ∧ v.writerKey = ourKey ∧ access p = Access.enoent) ∧
    (∀ v, (entries.map Prod.fst).Nodup → (p, some v) ∈ entries →
      v.writerKey ≠ ourKey → p ∉ pushDeletes ourKey access entries) := by
  have hiff : p ∈ pushDeletes ourKey access entries ↔
      ∃ v, (p, some v) ∈ entries ∧ v.writerKey = ourKey ∧ access p = Access.enoent := by
    unfold pushDeletes
    rw [List.mem_filterMap]
    constructor
    · rintro ⟨⟨q, ov⟩, hmem, hf⟩
      match ov with
      | none => simp at hf
      | some v =>
        simp only at hf
        split_ifs at hf with hc
        · cases hf
          exact ⟨v, hmem, hc.1, hc.2⟩
    · rintro ⟨v, hmem, hk, ha⟩
      refine ⟨(p, some v), hmem, ?_⟩
      simp only
      rw [if_pos ⟨hk, ha⟩]
  refine ⟨hiff, ?_⟩
  intro v hnd hmem hne hp
  rcases hiff.mp hp with ⟨v', hmem', hk', _⟩
  have : some v = some v' := nodupKeys_eq hnd hmem hmem'
  cases this
  exact hne hk'

/-- Witness for C2: a foreign-authored entry is never `del`-ed, even
with the local file absent. -/
theorem pushDeletes_spec_witness :
    "b.txt" ∉ pushDeletes "w1" (fun _ => Access.enoent)
      [("a.txt", some demoMeta), ("b.txt", some foreignMeta)] :=
  (pushDeletes_spec "w1" (fun _ => Access.enoent)
      [("a.txt", some demoMeta), ("b.txt", some foreignMeta)] "b.txt").2
    foreignMeta (by decide) (by decide) (by decide)

/-- C8: the writer-exchange message handler appends an `add-writer` op
exactly when the received key is new on this connection, differs from the
local writer key, and the local base is writable; a non-writable receiver
appends nothing. -/
theorem onWriterKey_spec (ourKey : String) (writable : Bool)
    (st : ExchangeState) (peerKey : String) :
    ((onWriterKey ourKey writable st peerKey).appended =
        st.appended ++ [Op.addWriter peerKey] ↔
      (peerKey ∉ st.received ∧ peerKey ≠ ourKey ∧ writable = true)) ∧
    (writable = false → (onWriterKey ourKey writable st peerKey).appended = st.appended) := by
  have hne : st.appended ≠ st.appended ++ [Op.addWriter peerKey] := by
    intro h
    have := congrArg List.length h
    simp at this
  unfold onWriterKey
  by_cases h1 : peerKey ∈ st.received
  · rw [if_pos h1]
    exact ⟨⟨fun h => absurd h hne, fun h => absurd h1 h.1⟩, fun _ => rfl⟩
  · rw [if_neg h1]
    by_cases h2 : peerKey = ourKey
    · rw [if_pos h2]
      exact ⟨⟨fun h => absurd h hne, fun h => absurd h2 h.2.1⟩, fun _ => rfl⟩
    · rw [if_neg h2]
      cases writable with
      | true =>
        rw [if_pos rfl]
        exact ⟨⟨fun _ => ⟨h1, h2, rfl⟩, fun _ => rfl⟩, fun hw => by cases hw⟩
      | false =>
        rw [if_neg (by simp)]
        exact ⟨⟨fun h => absurd h hne, fun h => by cases h.2.2⟩, fun _ => rfl⟩

/-- Witness for C8: a non-writable receiver appends nothing. -/
theorem onWriterKey_spec_witness :
    (onWriterKey "w1" false ⟨[], []⟩ "w2").appended = [] :=
  (onWriterKey_spec "w1" false ⟨[], []⟩ "w2").2 rfl

/-- Characterization of the polling loop from attempt index `i`. -/
theorem pollFrom_spec (writable : Nat → Bool) (i : Nat) (hi : i ≤ maxAttempts) :
    ((pollFrom writable i).result = true ↔
      ∃ j, i ≤ j ∧ j < maxAttempts ∧ writable j = true) ∧
    (pollFrom writable i).attempts ≤ maxAttempts ∧
    (pollFrom writable i).errorEmitted = !(pollFrom writable i).result := by
  have H : ∀ n i, i ≤ maxAttempts → maxAttempts - i = n →
      ((pollFrom writable i).result = true ↔
        ∃ j, i ≤ j ∧ j < maxAttempts ∧ writable j = true) ∧
      (pollFrom writable i).attempts ≤ maxAttempts ∧
      (pollFrom writable i).errorEmitted = !(pollFrom writable i).result := by
    intro n
    induction n with
    | zero =>
      intro i hile hn
      have hnlt : ¬ i < maxAttempts := by omega
      rw [pollFrom, dif_neg hnlt]
      refine ⟨?_, by simpa using hile, rfl⟩
      simp only [Bool.false_eq_true, false_iff]
      rintro ⟨j, hij, hjlt, -⟩
      omega
    | succ n ih =>
      intro i hile hn
      have hlt : i < maxAttempts := by omega
      rw [pollFrom, dif_pos hlt]
      by_cases hw : writable i
      · rw [if_pos hw]
        refine ⟨?_, by simpa using hlt, rfl⟩
        simp only [true_iff]
        exact ⟨i, le_refl i, hlt, hw⟩
      · rw [if_neg hw]
        obtain ⟨ih1, ih2, ih3⟩ := ih (i + 1) (by omega) (by omega)
        refine ⟨?_, ih2, ih3⟩
        rw [ih1]
        constructor
        · rintro ⟨j, hij, hjlt, hwj⟩; exact ⟨j, by omega, hjlt, hwj⟩
        · rintro ⟨j, hij, hjlt, hwj⟩
          refine ⟨j, ?_, hjlt, hwj⟩
          rcases Nat.eq_or_lt_of_le hij with rfl | h
          · exact absurd hwj (by simpa using hw)
          · omega
  exact H (maxAttempts - i) i hi rfl

/-- C9: `_pollForWriterStatus` always terminates; it returns `true` iff
the node becomes writable at some attempt before the 30-attempt deadline,
runs at most `maxAttempts = 30` one-second attempts, and emits the
timeout error exactly when it returns `false`. -/
theorem pollForWriterStatus_spec (writable : Nat → Bool) :
    maxAttempts = 30 ∧ pollIntervalMs = 1000 ∧
    ((pollForWriterStatus writable).result = true ↔
      ∃ j, j < maxAttempts ∧ writable j = true) ∧
    (pollForWriterStatus writable).attempts ≤ maxAttempts ∧
    (pollForWriterStatus writable).errorEmitted = !(pollForWriterStatus writable).result := by
  obtain ⟨h1, h2, h3⟩ := pollFrom_spec writable 0 (by omega)
  refine ⟨rfl, rfl, ?_, h2, h3⟩
  rw [pollForWriterStatus, h1]
  constructor
  · rintro ⟨j, -, hjlt, hwj⟩; exact ⟨j, hjlt, hwj⟩
  · rintro ⟨j, hjlt, hwj⟩; exact ⟨j, Nat.zero_le j, hjlt, hwj⟩

/-- The base64 alphabet decodes back to the sextet it encodes. -/
theorem b64Val_b64Char : ∀ n < 64, b64Val (b64Char n) = n := by decide

/-- No alphabet character is the padding character. -/
theorem b64Char_ne_pad : ∀ n < 64, b64Char n ≠ '=' := by decide

/-- Base64 decode is a left inverse of base64 encode on byte lists. -/
theorem b64decode_encode : ∀ (bs : List Nat), (∀ b ∈ bs, b < 256) →
    b64decode (b64encode bs) = bs
  | [], _ => rfl
  | [a], h => by
    have ha : a < 256 := h a (by simp)
    have h1 : a / 4 < 64 := by omega
    have h2 : a % 4 * 16 < 64 := by omega
    simp only [b64encode, b64decode]
    rw [b64Val_b64Char _ h1, b64Val_b64Char _ h2]
    simp
    omega
  | [a, b], h => by
    have ha : a < 256 := h a (by simp)
    have hb : b < 256 := h b (by simp)
    have h1 : a / 4 < 64 := by omega
    have h2 : a % 4 * 16 + b / 16 < 64 := by omega
    have h3 : b % 16 * 4 < 64 := by omega
    simp only [b64encode, b64decode]
    rw [if_neg (b64Char_ne_pad _ h3)]
    rw [b64Val_b64Char _ h1, b64Val_b64Char _ h2, b64Val_b64Char _ h3]
    simp
    constructor <;> omega
  | a :: b :: c :: rest, h => by
    have ha : a < 256 := h a (by simp)
    have hb : b < 256 := h b (by simp)
    have hc : c < 256 := h c (by simp)
    have h1 : a / 4 < 64 := by omega
    have h2 : a % 4 * 16 + b / 16 < 64 := by omega
    have h3 : b % 16 * 4 + c / 64 < 64 := by omega
    have h4 : c % 64 < 64 := by omega
    have ih := b64decode_encode rest (fun x hx => h x (by simp [hx]))
    simp only [b64encode, b64decode]
    rw [if_neg (b64Char_ne_pad _ h3), if_neg (b64Char_ne_pad _ h4)]
    rw [b64Val_b64Char _ h1, b64Val_b64Char _ h2, b64Val_b64Char _ h3, b64Val_b64Char _ h4]
    have e1 : a / 4 * 4 + (a % 4 * 16 + b / 16) / 16 = a := by omega
    have e2 : (a % 4 * 16 + b / 16) % 16 * 16 + (b % 16 * 4 + c / 64) / 4 = b := by omega
    have e3 : (b % 16 * 4 + c / 64) % 4 * 64 + c % 64 = c := by omega
    rw [e1, e2, e3, ih]

/-- C6: the bytes `_pullFile` materializes from a view entry produced by
`_pushFile` are exactly the bytes read from disk at push time — the
base64 embed/decode of the content round-trips for every byte content,
the empty file included. -/
theorem pushPull_roundtrip (hashFn : List Nat → String) (ourKey : String)
    (st : LocalStat) (content : List Nat) (h : ∀ b ∈ content, b < 256) :
    pullContent (pushMeta hashFn ourKey st content) = content := by
  unfold pullContent pushMeta
  exact b64decode_encode content h

/-- Witness for C6 on an empty file and on concrete bytes `"Hello"`. -/
theorem pushPull_roundtrip_witness :
    pullContent (pushMeta demoHash "w1" ⟨0, 0, 420⟩ []) = [] ∧
    pullContent (pushMeta demoHash "w1" ⟨5, 0, 420⟩ [72, 101, 108, 108, 111]) =
      [72, 101, 108, 108, 111] :=
  ⟨pushPull_roundtrip demoHash "w1" ⟨0, 0, 420⟩ [] (by decide),
   pushPull_roundtrip demoHash "w1" ⟨5, 0, 420⟩ [72, 101, 108, 108, 111] (by decide)⟩

/-! ### Lemmas about the push loop -/

/-- After `_pushFile` records a file's stat and hash, `_needsSync` on the
unchanged file is false. -/
theorem needsSync_pushMeta (hashFn : List Nat → String) (ourKey : String)
    (st : LocalStat) (content : List Nat) :
    needsSync hashFn (some st) (some (pushMeta hashFn ourKey st content)) content = false := by
  simp [needsSync, pushMeta]

theorem viewGet_beePut_self (k : String) (v : FileMeta) (view : View) :
    viewGet (beePut k v view) k = some v := by
  induction view with
  | nil => simp [beePut, viewGet]
  | cons e rest ih =>
    obtain ⟨k', v'⟩ := e
    by_cases h1 : k < k'
    · simp [beePut, h1, viewGet]
    · by_cases h2 : k = k'
      · simp [beePut, h1, h2, viewGet]
      · simp [beePut, h1, h2, viewGet, ih]

theorem viewGet_beePut_ne (k k2 : String) (v : FileMeta) (view : View) (h : k2 ≠ k) :
    viewGet (beePut k v view) k2 = viewGet view k2 := by
  induction view with
  | nil => simp [beePut, viewGet, h]
  | cons e rest ih =>
    obtain ⟨k', v'⟩ := e
    by_cases h1 : k < k'
    · simp [beePut, h1, viewGet, h]
    · by_cases h2 : k = k'
      · subst h2
        simp [beePut, h1, viewGet, h]
      · simp [beePut, h1, h2, viewGet, ih]

/-- The view component of the push fold ignores the accumulated op list. -/
theorem pushFold_fst (hashFn : List Nat → String) (ourKey : String)
    (patterns : List String) (files : List LocalFile) :
    ∀ (view : View) (ops : List (String × FileMeta)),
      (files.foldl (pushStep hashFn ourKey patterns) (view, ops)).1 =
        files.foldl (pushView hashFn ourKey patterns) view := by
  induction files with
  | nil => intro view ops; rfl
  | cons f fs ih =>
    intro view ops
    rw [List.foldl_cons, List.foldl_cons, ih]
    congr 1
    unfold pushStep pushView
    split_ifs <;> rfl

/-- Folding the push loop over files that all avoid a path `q` leaves the
view unchanged at `q`. -/
theorem pushFold_get_ne (hashFn : List Nat → String) (ourKey : String)
    (patterns : List String) (files : List LocalFile) :
    ∀ (view : View) (q : String), (∀ f ∈ files, f.path ≠ q) →
      viewGet (files.foldl (pushView hashFn ourKey patterns) view) q = viewGet view q := by
  induction files with
  | nil => intro view q _; rfl
  | cons f fs ih =>
    intro view q h
    rw [List.foldl_cons, ih _ _ (fun g hg => h g (List.mem_cons_of_mem f hg))]
    unfold pushView
    split_ifs
    · rfl
    · exact viewGet_beePut_ne f.path q _ view (fun he => h f (List.mem_cons_self f fs) he.symm)
    · rfl

/-- After one full push pass over a nodup directory, `_needsSync` is
false for every walked, non-ignored file. -/
theorem pushFold_needsSync_false (hashFn : List Nat → String) (ourKey : String)
    (patterns : List String) (files : List LocalFile) :
    ∀ (view : View), (files.map LocalFile.path).Nodup →
      ∀ f ∈ files, shouldIgnore patterns f.path = false →
        fileNeedsSync hashFn (files.foldl (pushView hashFn ourKey patterns) view) f = false := by
  induction files with
  | nil => intro view _ f hf; cases hf
  | cons g gs ih =>
    intro view hnd f hf hig
    rw [List.map_cons, List.nodup_cons] at hnd
    rcases List.mem_cons.mp hf with rfl | hf'
    · rw [List.foldl_cons]
      have hgs : ∀ x ∈ gs, x.path ≠ f.path := by
        intro x hx he
        exact hnd.1 (he ▸ List.mem_map_of_mem LocalFile.path hx)
      have hpres := pushFold_get_ne hashFn ourKey patterns gs
        (pushView hashFn ourKey patterns view f) f.path hgs
      unfold fileNeedsSync
      rw [hpres]
      unfold pushView
      rw [if_neg (by simp [hig])]
      by_cases hns : fileNeedsSync hashFn view f
      · rw [if_pos hns, viewGet_beePut_self]
        exact needsSync_pushMeta hashFn ourKey f.stat f.content
      · rw [if_neg hns]
        exact Bool.not_eq_true _ ▸ (by simpa [fileNeedsSync] using hns)
    · rw [List.foldl_cons]
      exact ih _ hnd.2 f hf' hig

/-- When no walked file needs a sync, the push fold is a no-op. -/
theorem pushFold_noop (hashFn : List Nat → String) (ourKey : String)
    (patterns : List String) (files : List LocalFile) :
    ∀ (view : View) (ops : List (String × FileMeta)),
      (∀ f ∈ files, shouldIgnore patterns f.path = false →
        fileNeedsSync hashFn view f = false) →
      files.foldl (pushStep hashFn ourKey patterns) (view, ops) = (view, ops) := by
  induction files with
  | nil => intro view ops _; rfl
  | cons g gs ih =>
    intro view ops h
    rw [List.foldl_cons]
    have hstep : pushStep hashFn ourKey patterns (view, ops) g = (view, ops) := by
      unfold pushStep
      by_cases hig : shouldIgnore patterns g.path
      · rw [if_pos hig]
      · rw [if_neg hig]
        rw [if_neg (by simp [h g (List.mem_cons_self g gs) (by simpa using hig)])]
    rw [hstep]
    exact ih view ops (fun f hf => h f (List.mem_cons_of_mem g hf))

/-- Every op the push loop appends names a walked, non-ignored file. -/
theorem pushFold_ops_from_files (hashFn : List Nat → String) (ourKey : String)
    (patterns : List String) (files : List LocalFile) :
    ∀ (view : View) (ops : List (String × FileMeta)) (p : String) (m : FileMeta),
      (p, m) ∈ (files.foldl (pushStep hashFn ourKey patterns) (view, ops)).2 →
      (p, m) ∈ ops ∨ ∃ f ∈ files, p = f.path ∧ shouldIgnore patterns f.path = false := by
  induction files with
  | nil => intro view ops p m hmem; exact Or.inl hmem
  | cons g gs ih =>
    intro view ops p m hmem
    rw [List.foldl_cons] at hmem
    unfold pushStep at hmem
    by_cases hig : shouldIgnore patterns g.path
    · rw [if_pos hig] at hmem
      rcases ih _ _ _ _ hmem with h | ⟨f, hf, he, hfi⟩
      · exact Or.inl h
      · exact Or.inr ⟨f, List.mem_cons_of_mem g hf, he, hfi⟩
    · rw [if_neg hig] at hmem
      by_cases hns : fileNeedsSync hashFn view g
      · rw [if_pos hns] at hmem
        rcases ih _ _ _ _ hmem with h | ⟨f, hf, he, hfi⟩
        · rcases List.mem_append.mp h with h' | h'
          · exact Or.inl h'
          · rcases List.mem_singleton.mp h' with he'
            exact Or.inr ⟨g, List.mem_cons_self g gs,
              (Prod.ext_iff.mp he').1, by simpa using hig⟩
        · exact Or.inr ⟨f, List.mem_cons_of_mem g hf, he, hfi⟩
      · rw [if_neg hns] at hmem
        rcases ih _ _ _ _ hmem with h | ⟨f, hf, he, hfi⟩
        · exact Or.inl h
        · exact Or.inr ⟨f, List.mem_cons_of_mem g hf, he, hfi⟩

/-- C5: with a nodup walked directory and no intervening filesystem
change, after one push pass `_needsSync` is false on every non-ignored
walked file, so a second push pass appends no operation and leaves the
view untouched. -/
theorem push_idempotent (hashFn : List Nat → String) (ourKey : String)
    (patterns : List String) (view : View) (files : List LocalFile)
    (hnd : (files.map LocalFile.path).Nodup) :
    (∀ f ∈ files, shouldIgnore patterns f.path = false →
      fileNeedsSync hashFn (pushRun hashFn ourKey patterns view files).1 f = false) ∧
    pushRun hashFn ourKey patterns (pushRun hashFn ourKey patterns view files).1 files =
      ((pushRun hashFn ourKey patterns view files).1, []) := by
  have hfst : (pushRun hashFn ourKey patterns view files).1 =
      files.foldl (pushView hashFn ourKey patterns) view := pushFold_fst _ _ _ _ _ _
  have hall : ∀ f ∈ files, shouldIgnore patterns f.path = false →
      fileNeedsSync hashFn (pushRun hashFn ourKey patterns view files).1 f = false := by
    rw [hfst]
    exact pushFold_needsSync_false hashFn ourKey patterns files view hnd
  exact ⟨hall, pushFold_noop hashFn ourKey patterns files _ [] hall⟩

/-- Witness for C5: two consecutive pushes of a concrete two-file
directory — the second appends nothing. -/
theorem push_idempotent_witness :
    pushRun demoHash "w1" DEFAULT_IGNORES
        (pushRun demoHash "w1" DEFAULT_IGNORES [] demoFiles).1 demoFiles =
      ((pushRun demoHash "w1" DEFAULT_IGNORES [] demoFiles).1, []) :=
  (push_idempotent demoHash "w1" DEFAULT_IGNORES [] demoFiles (by decide)).2

/-- C7: a path matched by the ignore list is acted on by neither
direction: push appends no `put` for it, and pull neither writes it nor
unlinks it. -/
theorem ignored_path_untouched (hashFn : List Nat → String) (ourKey : String)
    (patterns : List String) (view : View) (files : List LocalFile)
    (localFS : String → Option LocalStat) (entries : List (String × Option FileMeta))
    (localList : List String) (p : String)
    (hig : shouldIgnore patterns p = true) :
    (∀ m, (p, m) ∉ (pushRun hashFn ourKey patterns view files).2) ∧
    p ∉ pullWrites patterns localFS entries ∧
    p ∉ pullDeletes patterns entries localList := by
  refine ⟨?_, ?_, ?_⟩
  · intro m hm
    rcases pushFold_ops_from_files hashFn ourKey patterns files view [] p m hm with
      h | ⟨f, _, he, hfi⟩
    · cases h
    · rw [he] at hig
      rw [hig] at hfi
      cases hfi
  · intro hw
    unfold pullWrites at hw
    rcases List.mem_filterMap.mp hw with ⟨e, _, hf⟩
    by_cases h1 : shouldIgnore patterns e.1
    · rw [if_pos h1] at hf
      cases hf
    · rw [if_neg h1] at hf
      split_ifs at hf
      cases hf
      exact h1 (by simpa using hig)
  · intro hd
    unfold pullDeletes at hd
    have := (List.mem_filter.mp hd).2
    rw [hig] at this
    simp at this

/-- Witness for C7: the ignored path `logs.swp` (wildcard `*.swp`) is
untouched by a concrete push and pull. -/
theorem ignored_path_untouched_witness :
    ("logs.swp", demoMeta) ∉
      (pushRun demoHash "w1" DEFAULT_IGNORES [] demoFiles).2 ∧
    "logs.swp" ∉ pullWrites DEFAULT_IGNORES (fun _ => none)
      [("logs.swp", some demoMeta)] ∧
    "logs.swp" ∉ pullDeletes DEFAULT_IGNORES [("logs.swp", some demoMeta)] ["logs.swp"] :=
  have h := ignored_path_untouched demoHash "w1" DEFAULT_IGNORES [] demoFiles
    (fun _ => none) [("logs.swp", some demoMeta)] ["logs.swp"] "logs.swp" (by decide)
  ⟨h.1 demoMeta, h.2.1, h.2.2⟩

end PearSync
